import Mathlib

/-
Verification of the packet-encoder pipeline of the valence wire-protocol
transport layer (crates/valence_core/src/packet/encode.rs), over a shallow
embedding in Lean.

Byte buffers are modelled as `List Nat` (each element a byte value), machine
integers as `Nat`/`Int` with explicit reductions modulo 2^32 where the source
casts between `usize` and `i32`.  The external zlib compressor (the flate2
crate) and the AES-128 block cipher (the aes crate) are external dependencies
of the code, not part of it; they enter the embedding as function parameters
(`Z` for the compressor, `E` for the block-cipher output byte), so every
theorem below holds for any compressor and any block cipher.
-/

/-- Reduction of an `i32` value to its unsigned 32-bit two's-complement bit
pattern (the unsigned view the varint encoder works on). -/
def i32ToU32 (v : Int) : Nat :=
  (v % 4294967296).toNat

/-- Reinterpretation of a 32-bit pattern as a signed `i32` value. -/
def u32ToI32 (u : Nat) : Int :=
  if u % 4294967296 < 2147483648 then ((u % 4294967296 : Nat) : Int)
  else ((u % 4294967296 : Nat) : Int) - 4294967296

/-- The Rust cast `usize as i32`: keep the low 32 bits, reinterpret signed. -/
def usizeToI32 (n : Nat) : Int :=
  u32ToI32 n

/-- Modelled from the spec: the core loop of `VarInt::encode` (the varint
codec source file is not included under src/; spec section 4.1).  Operating on
the unsigned 32-bit pattern, repeatedly emit the low 7 bits with the high bit
of the byte set when more groups remain. -/
def varIntEncodeAux (u : Nat) : List Nat :=
  if h : u < 128 then [u]
  else (u % 128 + 128) :: varIntEncodeAux (u / 128)
decreasing_by exact Nat.div_lt_self (by omega) (by omega)

/-- Modelled from the spec: `VarInt::encode` for an `i32` value, encoding the
raw two's-complement bit pattern in 7-bit groups (no zigzag folding). -/
def varIntEncode (v : Int) : List Nat :=
  varIntEncodeAux (i32ToU32 v)

/-- Modelled from the spec: `VarInt::written_size`, the number of bytes the
encoding of the value occupies. -/
def varIntWrittenSize (v : Int) : Nat :=
  (varIntEncode v).length

/-- Modelled from the spec: the decode loop of `VarInt::decode`; `i` counts
bytes consumed so far, `acc` accumulates the reconstructed bit pattern.
Decoding fails after 5 bytes without a terminating (high-bit-clear) byte,
and on running out of input. -/
def varIntDecodeLoop : List Nat → Nat → Nat → Option (Nat × Nat)
  | [], _, _ => none
  | b :: rest, i, acc =>
    if 5 ≤ i then none
    else
      let acc2 := acc + b % 128 * 128 ^ i
      if b < 128 then some (acc2, i + 1)
      else varIntDecodeLoop rest (i + 1) acc2

/-- Modelled from the spec: `VarInt::decode`, returning the decoded `i32`
value and the number of bytes consumed. -/
def varIntDecode (bs : List Nat) : Option (Int × Nat) :=
  match varIntDecodeLoop bs 0 0 with
  | none => none
  | some (acc, n) => some (u32ToI32 acc, n)

theorem varIntEncodeAux_length_pos (u : Nat) : 1 ≤ (varIntEncodeAux u).length := by
  rw [varIntEncodeAux]
  split <;> simp

theorem varIntEncodeAux_length_le :
    ∀ k u, u < 128 ^ k → 1 ≤ k → (varIntEncodeAux u).length ≤ k := by
  intro k
  induction k with
  | zero => omega
  | succ n ih =>
    intro u hu _
    rw [varIntEncodeAux]
    split
    · simp
    · simp only [List.length_cons]
      have hrec : u / 128 < 128 ^ n := by
        have : u < 128 * 128 ^ n := by
          have : (128 : Nat) ^ (n + 1) = 128 * 128 ^ n := by ring
          omega
        omega
      rcases Nat.eq_zero_or_pos n with hn | hn
      · subst hn
        simp only [pow_zero, Nat.lt_one_iff] at hrec
        omega
      · have := ih (u / 128) hrec hn
        omega

theorem varIntDecodeLoop_encodeAux :
    ∀ u i acc rest, u < 128 ^ (5 - i) → i ≤ 4 →
      varIntDecodeLoop (varIntEncodeAux u ++ rest) i acc =
        some (acc + u * 128 ^ i, i + (varIntEncodeAux u).length) := by
  intro u
  induction u using Nat.strong_induction_on with
  | _ u ih =>
    intro i acc rest hu hi
    rw [varIntEncodeAux]
    split
    · rename_i h
      simp only [List.cons_append, List.nil_append, varIntDecodeLoop]
      rw [if_neg (by omega), if_pos (by omega)]
      simp only [List.length_cons, List.length_nil]
      rw [Nat.mod_eq_of_lt h]
    · rename_i h
      simp only [List.cons_append, varIntDecodeLoop, List.append_eq]
      rw [if_neg (by omega), if_neg (by omega)]
      have hmod : (u % 128 + 128) % 128 = u % 128 := by omega
      have h4 : i ≤ 3 := by
        by_contra hc
        have hi4 : i = 4 := by omega
        subst hi4
        norm_num at hu
        omega
      have key : (128 : Nat) ^ (5 - (i + 1)) * 128 = 128 ^ (5 - i) := by
        rw [← pow_succ]
        congr 1
        omega
      have hdiv : u / 128 < 128 ^ (5 - (i + 1)) := by
        have h2 : u < 128 ^ (5 - (i + 1)) * 128 := by rw [key]; exact hu
        omega
      have hrec := ih (u / 128) (Nat.div_lt_self (by omega) (by omega)) (i + 1)
        (acc + (u % 128 + 128) % 128 * 128 ^ i) rest hdiv (by omega)
      rw [hrec]
      have hmd : u % 128 + 128 * (u / 128) = u := Nat.mod_add_div u 128
      have e1 : acc + (u % 128 + 128) % 128 * 128 ^ i + u / 128 * 128 ^ (i + 1) =
          acc + u * 128 ^ i := by
        rw [hmod, pow_succ]
        calc acc + u % 128 * 128 ^ i + u / 128 * (128 ^ i * 128)
            = acc + (u % 128 + 128 * (u / 128)) * 128 ^ i := by ring
          _ = acc + u * 128 ^ i := by rw [hmd]
      rw [e1]
      simp only [List.length_cons]
      have e2 : i + 1 + (varIntEncodeAux (u / 128)).length =
          i + ((varIntEncodeAux (u / 128)).length + 1) := by omega
      rw [e2]

theorem i32ToU32_lt (v : Int) : i32ToU32 v < 4294967296 := by
  unfold i32ToU32
  omega

theorem u32ToI32_i32ToU32 (v : Int) (h1 : -2147483648 ≤ v) (h2 : v < 2147483648) :
    u32ToI32 (i32ToU32 v) = v := by
  unfold u32ToI32 i32ToU32
  split <;> omega

theorem i32ToU32_ofNat (n : Nat) (h : n < 4294967296) : i32ToU32 (n : Int) = n := by
  unfold i32ToU32
  omega

theorem usizeToI32_small (n : Nat) (h : n < 2147483648) : usizeToI32 n = (n : Int) := by
  unfold usizeToI32 u32ToI32
  split <;> omega

/-- Round-trip of the varint codec through an arbitrary suffix: decoding the
encoding of an in-range value consumes exactly the encoded bytes and returns
the value. -/
theorem varIntDecode_encode_append (v : Int) (rest : List Nat)
    (h1 : -2147483648 ≤ v) (h2 : v < 2147483648) :
    varIntDecode (varIntEncode v ++ rest) = some (v, (varIntEncode v).length) := by
  unfold varIntDecode varIntEncode
  have hlt : i32ToU32 v < 128 ^ 5 := by
    have := i32ToU32_lt v
    norm_num
    omega
  rw [varIntDecodeLoop_encodeAux (i32ToU32 v) 0 0 rest (by simpa using hlt) (by omega)]
  simp only [pow_zero, Nat.mul_one, Nat.zero_add]
  rw [u32ToI32_i32ToU32 v h1 h2]

/-- Fuel-bounded restatement of the varint encode loop; structurally recursive,
so that concrete encodings reduce by evaluation in witnesses. -/
def varIntEncodeFuel : Nat → Nat → List Nat
  | 0, _ => []
  | fuel + 1, u => if u < 128 then [u] else (u % 128 + 128) :: varIntEncodeFuel fuel (u / 128)

theorem varIntEncodeAux_eq_fuel :
    ∀ fuel u, u < 128 ^ fuel → 1 ≤ fuel → varIntEncodeAux u = varIntEncodeFuel fuel u := by
  intro fuel
  induction fuel with
  | zero => omega
  | succ n ih =>
    intro u hu _
    rw [varIntEncodeAux, varIntEncodeFuel]
    split
    · rfl
    · rename_i h
      congr 1
      have hn : 1 ≤ n := by
        by_contra hc
        have : n = 0 := by omega
        subst this
        norm_num at hu
        omega
      apply ih
      · have : (128 : Nat) ^ (n + 1) = 128 ^ n * 128 := by ring
        rw [this] at hu
        omega
      · exact hn

/-- Every `i32` varint encoding is computed by five units of fuel. -/
theorem varIntEncode_eval (v : Int) : varIntEncode v = varIntEncodeFuel 5 (i32ToU32 v) := by
  unfold varIntEncode
  apply varIntEncodeAux_eq_fuel
  · have := i32ToU32_lt v
    norm_num
    omega
  · omega

/-- Modelled from the spec: the maximum packet size constant `MAX_PACKET_SIZE`
(declared in crate::packet, whose source file is not included under src/); the
protocol bounds the framed packet length by 2^21 bytes. -/
def MAX_PACKET_SIZE : Nat := 2097152

/-- A packet, seen by the encoder only through `Packet::encode_packet`: it
writes `bytes` into the sink and then reports success (`ok = true`) or an
encoding error (`ok = false`, with the written bytes left in the sink, as a
Rust writer does not roll back). -/
structure Packet where
  bytes : List Nat
  ok : Bool
deriving DecidableEq

/-- The encoding errors produced by the framing pipeline: failure of the
packet's own payload serializer, and the `ensure!` guard message
"packet exceeds maximum length" (PacketTooLarge). -/
inductive EncodeError where
  | encodeFail : EncodeError
  | packetTooLarge : EncodeError
deriving DecidableEq

/-- State of `PacketEncoder`: the output buffer, the optional compression
threshold, and the optional cipher state.  The cipher state is the 16-byte
CFB-8 feedback register (initialized to the IV); the AES key schedule is fixed
at `enable_encryption` time and enters the model as the block-function
parameter `E` of `take`.  The write-only compression scratch buffer
(`compress_buf`) is not observable and is omitted. -/
structure PacketEncoder where
  buf : List Nat
  compression_threshold : Option Nat
  cipher : Option (List Nat)
deriving DecidableEq

/-- `PacketEncoder::new` / `Default::default`. -/
def PacketEncoder.new : PacketEncoder :=
  { buf := [], compression_threshold := none, cipher := none }

/-- `PacketEncoder::append_bytes`: extend the buffer with the raw bytes. -/
def PacketEncoder.append_bytes (enc : PacketEncoder) (bytes : List Nat) : PacketEncoder :=
  { enc with buf := enc.buf ++ bytes }

/-- `PacketEncoder::append_packet`.  `Z` is the external zlib compressor
(flate2 at compression level 4) as a function from payload to compressed
bytes.  The result carries the encoder state after the call (Rust mutates in
place, so the state after a failed call is also meaningful) together with the
error, if any.  In the source the success branches first append the payload,
then reserve prefix space with put_bytes/copy_within and write the varint
prefix(es) into the reserved space (or, in the compressed branch, truncate and
rewrite); the model records the resulting buffer contents.  The `ensure!`
guards run before any prefix is written, so on failure the buffer holds the
old contents followed by the serialized payload. -/
def PacketEncoder.append_packet (Z : List Nat → List Nat) (enc : PacketEncoder)
    (pkt : Packet) : PacketEncoder × Option EncodeError :=
  let buf1 := enc.buf ++ pkt.bytes
  if pkt.ok = false then ({ enc with buf := buf1 }, some EncodeError.encodeFail)
  else
    let data_len := pkt.bytes.length
    match enc.compression_threshold with
    | some threshold =>
      if threshold < data_len then
        let compressed := Z pkt.bytes
        let data_len_size := varIntWrittenSize (usizeToI32 data_len)
        let packet_len := data_len_size + compressed.length
        if MAX_PACKET_SIZE < packet_len then
          ({ enc with buf := buf1 }, some EncodeError.packetTooLarge)
        else
          ({ enc with buf := enc.buf ++ varIntEncode (usizeToI32 packet_len) ++
              varIntEncode (usizeToI32 data_len) ++ compressed }, none)
      else
        let packet_len := 1 + data_len
        if MAX_PACKET_SIZE < packet_len then
          ({ enc with buf := buf1 }, some EncodeError.packetTooLarge)
        else
          ({ enc with buf := enc.buf ++ varIntEncode (usizeToI32 packet_len) ++
              varIntEncode 0 ++ pkt.bytes }, none)
    | none =>
      let packet_len := data_len
      if MAX_PACKET_SIZE < packet_len then
        ({ enc with buf := buf1 }, some EncodeError.packetTooLarge)
      else
        ({ enc with buf := enc.buf ++ varIntEncode (usizeToI32 packet_len) ++ pkt.bytes },
          none)

/-- The `slice::copy_within(src..srcEnd, dst)` operation on a list: copy the
range `[src, srcEnd)` onto the positions starting at `dst` (memmove
semantics, reading from the original contents). -/
def copyWithin (l : List Nat) (src srcEnd dst : Nat) : List Nat :=
  l.take dst ++ (l.drop src).take (srcEnd - src) ++ l.drop (dst + (srcEnd - src))

/-- `PacketEncoder::prepend_packet`: append the framed packet, then splice it
to the front with the three buffer moves of the source (grow by the frame
length, shift everything back, copy the frame to the front, truncate). -/
def PacketEncoder.prepend_packet (Z : List Nat → List Nat) (enc : PacketEncoder)
    (pkt : Packet) : PacketEncoder × Option EncodeError :=
  let start_len := enc.buf.length
  match enc.append_packet Z pkt with
  | (enc2, some e) => (enc2, some e)
  | (enc2, none) =>
    let end_len := enc2.buf.length
    let total_packet_len := end_len - start_len
    let step1 := enc2.buf ++ List.replicate total_packet_len 0
    let step2 := copyWithin step1 0 end_len total_packet_len
    let step3 := copyWithin step2 (total_packet_len + start_len) (end_len + total_packet_len) 0
    ({ enc2 with buf := step3.take end_len }, none)

/-- One step of the CFB-8 encryptor (cfb8::Encryptor with block size one):
the ciphertext byte is the plaintext byte XORed with the first byte of the
block cipher applied to the feedback register (`E`), and the register shifts
left by one byte, taking the ciphertext byte in at the end. -/
def cfb8Step (E : List Nat → Nat) (reg : List Nat) (p : Nat) : Nat × List Nat :=
  let c := (Nat.xor p (E reg)) % 256
  (c, reg.drop 1 ++ [c])

/-- CFB-8 encryption of a byte list, threading the feedback register;
returns the ciphertext and the final register. -/
def cfb8Encrypt (E : List Nat → Nat) (reg : List Nat) : List Nat → List Nat × List Nat
  | [] => ([], reg)
  | p :: ps =>
    let s := cfb8Step E reg p
    let r := cfb8Encrypt E s.2 ps
    (s.1 :: r.1, r.2)

/-- `PacketEncoder::take`: if a cipher is installed, encrypt the whole buffer
in place, walking it in cipher-block-size (= 1 byte) chunks; then split off
and return all buffered bytes, leaving the buffer empty.  `E` is the AES-128
block function applied to the feedback register (first output byte). -/
def PacketEncoder.take (E : List Nat → Nat) (enc : PacketEncoder) :
    List Nat × PacketEncoder :=
  match enc.cipher with
  | none => (enc.buf, { enc with buf := [] })
  | some reg =>
    let r := cfb8Encrypt E reg enc.buf
    (r.1, { enc with buf := [], cipher := some r.2 })

/-- `PacketEncoder::clear`. -/
def PacketEncoder.clear (enc : PacketEncoder) : PacketEncoder :=
  { enc with buf := [] }

/-- `PacketEncoder::set_compression`. -/
def PacketEncoder.set_compression (enc : PacketEncoder) (threshold : Option Nat) :
    PacketEncoder :=
  { enc with compression_threshold := threshold }

/-- `PacketEncoder::enable_encryption`: asserts that no cipher is installed
(`none` result models the assertion failure, a panic) and installs the CFB-8
cipher with the 16-byte key used as both key and IV; the initial feedback
register is the IV, i.e. the key bytes. -/
def PacketEncoder.enable_encryption (enc : PacketEncoder) (key : List Nat) :
    Option PacketEncoder :=
  match enc.cipher with
  | some _ => none
  | none => some { enc with cipher := some key }

/-- The free function `encode_packet` (no compression): append the payload,
check the length guard, then splice the varint length prefix in front of the
payload; on failure the payload bytes stay in the buffer. -/
def encode_packet (buf : List Nat) (pkt : Packet) : List Nat × Option EncodeError :=
  let buf1 := buf ++ pkt.bytes
  if pkt.ok = false then (buf1, some EncodeError.encodeFail)
  else
    let packet_len := pkt.bytes.length
    if MAX_PACKET_SIZE < packet_len then (buf1, some EncodeError.packetTooLarge)
    else (buf ++ varIntEncode (usizeToI32 packet_len) ++ pkt.bytes, none)

/-- The free function `encode_packet_compressed`, mirroring the compression
branches of `append_packet` (the scratch buffer is cleared and reused, and is
not part of the observable result). -/
def encode_packet_compressed (Z : List Nat → List Nat) (buf : List Nat) (pkt : Packet)
    (threshold : Nat) : List Nat × Option EncodeError :=
  let buf1 := buf ++ pkt.bytes
  if pkt.ok = false then (buf1, some EncodeError.encodeFail)
  else
    let data_len := pkt.bytes.length
    if threshold < data_len then
      let compressed := Z pkt.bytes
      let data_len_size := varIntWrittenSize (usizeToI32 data_len)
      let packet_len := data_len_size + compressed.length
      if MAX_PACKET_SIZE < packet_len then (buf1, some EncodeError.packetTooLarge)
      else (buf ++ varIntEncode (usizeToI32 packet_len) ++
        varIntEncode (usizeToI32 data_len) ++ compressed, none)
    else
      let packet_len := 1 + data_len
      if MAX_PACKET_SIZE < packet_len then (buf1, some EncodeError.packetTooLarge)
      else (buf ++ varIntEncode (usizeToI32 packet_len) ++ varIntEncode 0 ++ pkt.bytes,
        none)

/-- The one-shot sink `PacketWriter`, backed by a byte vector and a
compression threshold (the scratch vector is not observable). -/
structure PacketWriter where
  buf : List Nat
  threshold : Option Nat
deriving DecidableEq

/-- The encoding dispatch inside `PacketWriter::write_packet`: compressed
encoding when a threshold is configured, plain encoding otherwise. -/
def writerEncodeRes (Z : List Nat → List Nat) (w : PacketWriter) (pkt : Packet) :
    List Nat × Option EncodeError :=
  match w.threshold with
  | some t => encode_packet_compressed Z w.buf pkt t
  | none => encode_packet w.buf pkt

/-- `impl WritePacket for PacketWriter`: run the encoding dispatch and, on
error, only log a warning; the error never reaches the caller. -/
def PacketWriter.write_packet (Z : List Nat → List Nat) (w : PacketWriter)
    (pkt : Packet) : PacketWriter :=
  { w with buf := (writerEncodeRes Z w pkt).1 }

/-- `impl WritePacket for PacketEncoder`: call `append_packet` and, on error,
only log a warning; the error never reaches the caller. -/
def PacketEncoder.write_packet (Z : List Nat → List Nat) (enc : PacketEncoder)
    (pkt : Packet) : PacketEncoder :=
  (enc.append_packet Z pkt).1

theorem append_packet_threshold_eq (Z : List Nat → List Nat) (enc : PacketEncoder)
    (pkt : Packet) :
    ((enc.append_packet Z pkt).1).compression_threshold = enc.compression_threshold := by
  unfold PacketEncoder.append_packet
  dsimp only
  repeat' split <;> try rfl

theorem append_packet_cipher_eq (Z : List Nat → List Nat) (enc : PacketEncoder)
    (pkt : Packet) :
    ((enc.append_packet Z pkt).1).cipher = enc.cipher := by
  unfold PacketEncoder.append_packet
  dsimp only
  repeat' split <;> try rfl

/-- Outcome analysis of `append_packet`: either it fails and the state keeps
the old buffer with the serialized payload appended, or it succeeds and the
state keeps the old buffer with some framed bytes appended. -/
theorem append_packet_cases (Z : List Nat → List Nat) (enc : PacketEncoder) (pkt : Packet) :
    (∃ e, enc.append_packet Z pkt = ({ enc with buf := enc.buf ++ pkt.bytes }, some e)) ∨
    (∃ F, enc.append_packet Z pkt = ({ enc with buf := enc.buf ++ F }, none)) := by
  unfold PacketEncoder.append_packet
  dsimp only
  repeat' split
  all_goals
    first
      | exact Or.inl ⟨_, rfl⟩
      | (right
         simp only [List.append_assoc]
         exact ⟨_, rfl⟩)

theorem copyWithin_def (l : List Nat) (src srcEnd dst : Nat) :
    copyWithin l src srcEnd dst =
      l.take dst ++ (l.drop src).take (srcEnd - src) ++ l.drop (dst + (srcEnd - src)) := rfl

/-- The three buffer moves of `prepend_packet` (grow, shift back, copy to
front, truncate) turn a buffer holding old contents `B` followed by a freshly
appended frame `F` into the frame followed by the old contents. -/
theorem splice_core (B F : List Nat) :
    (copyWithin (copyWithin ((B ++ F) ++ List.replicate F.length 0) 0
        (B.length + F.length) F.length)
      (F.length + B.length) (B.length + F.length + F.length) 0).take
      (B.length + F.length) = F ++ B := by
  have hBF : (B ++ F).length = B.length + F.length := List.length_append B F
  have h1 : copyWithin ((B ++ F) ++ List.replicate F.length 0) 0
      (B.length + F.length) F.length =
      ((B ++ F) ++ List.replicate F.length 0).take F.length ++ (B ++ F) := by
    rw [copyWithin_def]
    rw [List.drop_zero, Nat.sub_zero]
    rw [List.take_left' hBF]
    rw [List.drop_eq_nil_of_le (by simp; omega)]
    rw [List.append_nil]
  set T := ((B ++ F) ++ List.replicate F.length 0).take F.length with hT
  have hTlen : T.length = F.length := by
    rw [hT, List.length_take]
    simp
    omega
  have h2 : copyWithin (T ++ (B ++ F)) (F.length + B.length)
      (B.length + F.length + F.length) 0 = F ++ (B ++ F) := by
    rw [copyWithin_def]
    rw [List.take_zero, List.nil_append]
    have hsub : B.length + F.length + F.length - (F.length + B.length) = F.length := by omega
    rw [hsub]
    have hD : (T ++ (B ++ F)).drop (F.length + B.length) = F := by
      have : T ++ (B ++ F) = (T ++ B) ++ F := by rw [List.append_assoc]
      rw [this]
      apply List.drop_left'
      rw [List.length_append, hTlen]
    rw [hD, List.take_length]
    rw [Nat.zero_add]
    congr 1
    exact List.drop_left' hTlen
  rw [h1, h2]
  have : F ++ (B ++ F) = (F ++ B) ++ F := by rw [List.append_assoc]
  rw [this]
  apply List.take_left'
  rw [List.length_append]
  omega

/-- When `append_packet` succeeds and appends the frame `F`, `prepend_packet`
succeeds and produces the frame followed by the untouched old contents. -/
theorem prepend_packet_success (Z : List Nat → List Nat) (enc : PacketEncoder)
    (pkt : Packet) (F : List Nat)
    (h : enc.append_packet Z pkt = ({ enc with buf := enc.buf ++ F }, none)) :
    enc.prepend_packet Z pkt = ({ enc with buf := F ++ enc.buf }, none) := by
  unfold PacketEncoder.prepend_packet
  rw [h]
  dsimp only
  simp only [List.length_append, Nat.add_sub_cancel_left]
  rw [splice_core]

/-- CFB-8 encryption splits over concatenation: encrypting `a ++ b` equals
encrypting `a`, then encrypting `b` starting from the final register of the
first step. -/
theorem cfb8Encrypt_append (E : List Nat → Nat) (reg a b : List Nat) :
    cfb8Encrypt E reg (a ++ b) =
      ((cfb8Encrypt E reg a).1 ++ (cfb8Encrypt E (cfb8Encrypt E reg a).2 b).1,
        (cfb8Encrypt E (cfb8Encrypt E reg a).2 b).2) := by
  induction a generalizing reg with
  | nil => simp [cfb8Encrypt]
  | cons p ps ih => simp [cfb8Encrypt, ih]

theorem varIntEncode_zero : varIntEncode 0 = [0] := by
  rw [varIntEncode_eval]
  decide

theorem encode_packet_cases (buf : List Nat) (pkt : Packet) :
    (∃ e, encode_packet buf pkt = (buf ++ pkt.bytes, some e)) ∨
    (encode_packet buf pkt).2 = none := by
  unfold encode_packet
  dsimp only
  repeat' split
  all_goals first | exact Or.inl ⟨_, rfl⟩ | exact Or.inr rfl

theorem encode_packet_compressed_cases (Z : List Nat → List Nat) (buf : List Nat)
    (pkt : Packet) (T : Nat) :
    (∃ e, encode_packet_compressed Z buf pkt T = (buf ++ pkt.bytes, some e)) ∨
    (encode_packet_compressed Z buf pkt T).2 = none := by
  unfold encode_packet_compressed
  dsimp only
  repeat' split
  all_goals first | exact Or.inl ⟨_, rfl⟩ | exact Or.inr rfl

/-- C1 (counterexample): an oversized packet in the no-compression path does
return PacketTooLarge, but the buffer is NOT what it was before the call: the
serialized payload has been appended and is never rolled back. -/
theorem C1_counterexample :
    (PacketEncoder.new.append_packet id
        ⟨List.replicate (MAX_PACKET_SIZE + 1) 0, true⟩).2 = some EncodeError.packetTooLarge ∧
    (PacketEncoder.new.append_packet id
        ⟨List.replicate (MAX_PACKET_SIZE + 1) 0, true⟩).1.buf ≠ PacketEncoder.new.buf := by
  have hred : PacketEncoder.new.append_packet id
      ⟨List.replicate (MAX_PACKET_SIZE + 1) 0, true⟩ =
      ({ PacketEncoder.new with
          buf := PacketEncoder.new.buf ++ List.replicate (MAX_PACKET_SIZE + 1) 0 },
        some EncodeError.packetTooLarge) := by
    unfold PacketEncoder.append_packet PacketEncoder.new
    dsimp only
    rw [if_neg (by decide)]
    rw [if_pos (by rw [List.length_replicate]; omega)]
  refine ⟨by rw [hred], ?_⟩
  rw [hred]
  dsimp only
  intro hcontra
  have hlen := congrArg List.length hcontra
  simp at hlen

/-- C1 (amended): whenever the computed outer packet length exceeds
MAX_PACKET_SIZE — in the no-compression path and in both compression
branches — append_packet returns PacketTooLarge, writes no framing bytes, but
leaves the buffer holding its prior contents followed by the serialized
payload (a visible partial write). -/
theorem C1_too_large_leaves_payload (Z : List Nat → List Nat) (enc : PacketEncoder)
    (pkt : Packet) (hok : pkt.ok = true) :
    (enc.compression_threshold = none → MAX_PACKET_SIZE < pkt.bytes.length →
      enc.append_packet Z pkt =
        ({ enc with buf := enc.buf ++ pkt.bytes }, some EncodeError.packetTooLarge)) ∧
    (∀ T, enc.compression_threshold = some T → pkt.bytes.length ≤ T →
      MAX_PACKET_SIZE < 1 + pkt.bytes.length →
      enc.append_packet Z pkt =
        ({ enc with buf := enc.buf ++ pkt.bytes }, some EncodeError.packetTooLarge)) ∧
    (∀ T, enc.compression_threshold = some T → T < pkt.bytes.length →
      MAX_PACKET_SIZE <
          varIntWrittenSize (usizeToI32 pkt.bytes.length) + (Z pkt.bytes).length →
      enc.append_packet Z pkt =
        ({ enc with buf := enc.buf ++ pkt.bytes }, some EncodeError.packetTooLarge)) := by
  refine ⟨?_, ?_, ?_⟩
  · intro hthr hbig
    unfold PacketEncoder.append_packet
    dsimp only
    rw [hok, hthr]
    simp only [Bool.true_eq_false, if_false]
    rw [if_pos hbig]
  · intro T hthr hT hbig
    unfold PacketEncoder.append_packet
    dsimp only
    rw [hok, hthr]
    simp only [Bool.true_eq_false, if_false]
    rw [if_neg (by omega), if_pos hbig]
  · intro T hthr hT hbig
    unfold PacketEncoder.append_packet
    dsimp only
    rw [hok, hthr]
    simp only [Bool.true_eq_false, if_false]
    rw [if_pos hT, if_pos hbig]

/-- Witness for the amended C1 on a concrete oversized packet. -/
theorem C1_too_large_leaves_payload_witness :
    PacketEncoder.new.append_packet id ⟨List.replicate (MAX_PACKET_SIZE + 1) 0, true⟩ =
      ({ PacketEncoder.new with
          buf := PacketEncoder.new.buf ++ List.replicate (MAX_PACKET_SIZE + 1) 0 },
        some EncodeError.packetTooLarge) :=
  (C1_too_large_leaves_payload id PacketEncoder.new
      ⟨List.replicate (MAX_PACKET_SIZE + 1) 0, true⟩ rfl).1 rfl
    (by rw [List.length_replicate]; omega)

/-- C2: with compression enabled at threshold T, a payload of data_len bytes
frames as varint(1 + data_len) ++ varint(0) ++ payload when data_len is at
most T, and as varint(dls + c_len) ++ varint(data_len) ++ compressed when
data_len exceeds T (c_len the compressed byte count, dls the written size of
varint(data_len)); in both branches the outer varint value equals the byte
count of everything that follows it in the frame. -/
theorem C2_compression_framing (Z : List Nat → List Nat) (enc : PacketEncoder)
    (pkt : Packet) (T : Nat)
    (hthr : enc.compression_threshold = some T) (hok : pkt.ok = true) :
    (pkt.bytes.length ≤ T → 1 + pkt.bytes.length ≤ MAX_PACKET_SIZE →
      enc.append_packet Z pkt =
        ({ enc with buf := enc.buf ++ varIntEncode ((1 + pkt.bytes.length : Nat) : Int) ++
            varIntEncode 0 ++ pkt.bytes }, none) ∧
      1 + pkt.bytes.length = (varIntEncode 0 ++ pkt.bytes).length) ∧
    (T < pkt.bytes.length → pkt.bytes.length < 2147483648 →
      varIntWrittenSize (pkt.bytes.length : Int) + (Z pkt.bytes).length ≤ MAX_PACKET_SIZE →
      enc.append_packet Z pkt =
        ({ enc with buf := enc.buf ++
            varIntEncode ((varIntWrittenSize (pkt.bytes.length : Int) +
              (Z pkt.bytes).length : Nat) : Int) ++
            varIntEncode (pkt.bytes.length : Int) ++ Z pkt.bytes }, none) ∧
      varIntWrittenSize (pkt.bytes.length : Int) + (Z pkt.bytes).length =
        (varIntEncode (pkt.bytes.length : Int) ++ Z pkt.bytes).length) := by
  constructor
  · intro hT hmax
    constructor
    · unfold PacketEncoder.append_packet
      dsimp only
      rw [hok, hthr]
      simp only [Bool.true_eq_false, if_false]
      rw [if_neg (by omega), if_neg (by omega)]
      rw [usizeToI32_small _ (by unfold MAX_PACKET_SIZE at hmax; omega)]
    · rw [varIntEncode_zero]
      simp
      omega
  · intro hT hsmall hmax
    have hcastd : usizeToI32 pkt.bytes.length = (pkt.bytes.length : Int) :=
      usizeToI32_small _ hsmall
    constructor
    · unfold PacketEncoder.append_packet
      dsimp only
      rw [hok, hthr]
      simp only [Bool.true_eq_false, if_false]
      rw [if_pos (by omega), hcastd]
      rw [if_neg (by omega)]
      rw [usizeToI32_small _ (by unfold MAX_PACKET_SIZE at hmax; omega)]
    · simp [varIntWrittenSize, List.length_append]

/-- Witness for C2, one concrete instance per branch. -/
theorem C2_compression_framing_witness :
    (⟨[], some 10, none⟩ : PacketEncoder).append_packet (fun _ => [9, 9]) ⟨[5, 6, 7], true⟩ =
      ({ buf := [4, 0, 5, 6, 7], compression_threshold := some 10, cipher := none }, none) ∧
    (⟨[], some 2, none⟩ : PacketEncoder).append_packet (fun _ => [9, 9]) ⟨[1, 2, 3], true⟩ =
      ({ buf := [3, 3, 9, 9], compression_threshold := some 2, cipher := none }, none) := by
  constructor
  · have h := ((C2_compression_framing (fun _ => [9, 9]) ⟨[], some 10, none⟩
      ⟨[5, 6, 7], true⟩ 10 rfl rfl).1 (by decide) (by decide)).1
    rw [h]
    simp only [varIntWrittenSize, varIntEncode_eval]
    decide
  · have h := ((C2_compression_framing (fun _ => [9, 9]) ⟨[], some 2, none⟩
      ⟨[1, 2, 3], true⟩ 2 rfl rfl).2 (by decide) (by decide)
      (by unfold varIntWrittenSize; rw [varIntEncode_eval]; decide)).1
    rw [h]
    simp only [varIntWrittenSize, varIntEncode_eval]
    decide

/-- C3: after encryption is enabled, the concatenation of the ciphertexts of
two successive take calls (with arbitrary appends in between) equals the
single continuous CFB-8 encryption of the concatenation of all plaintext
bytes buffered across both intervals; the cipher register is never reset
between takes. -/
theorem C3_cipher_continuity (E : List Nat → Nat) (enc : PacketEncoder)
    (reg p1 p2 : List Nat) (h : enc.cipher = some reg) :
    ((enc.append_bytes p1).take E).1 ++
      ((((enc.append_bytes p1).take E).2.append_bytes p2).take E).1 =
    (cfb8Encrypt E reg ((enc.buf ++ p1) ++ p2)).1 := by
  simp [PacketEncoder.take, PacketEncoder.append_bytes, h, cfb8Encrypt_append]

/-- Witness for C3 on concrete data with a concrete block function. -/
theorem C3_cipher_continuity_witness :
    (((⟨[10], none, some [1, 2]⟩ : PacketEncoder).append_bytes [20]).take
        (fun r => r.headD 0)).1 ++
      (((((⟨[10], none, some [1, 2]⟩ : PacketEncoder).append_bytes [20]).take
        (fun r => r.headD 0)).2.append_bytes [30]).take (fun r => r.headD 0)).1 =
    (cfb8Encrypt (fun r => r.headD 0) [1, 2] (([10] ++ [20]) ++ [30])).1 :=
  C3_cipher_continuity (fun r => r.headD 0) ⟨[10], none, some [1, 2]⟩ [1, 2] [20] [30] rfl

/-- C4: with compression disabled, append_packet on a payload of N bytes
appends exactly varint(N) ++ payload, growing the buffer by the written size
of varint(N) plus N, and the appended prefix decodes back to N. -/
theorem C4_no_compression_framing (Z : List Nat → List Nat) (enc : PacketEncoder)
    (pkt : Packet) (hthr : enc.compression_threshold = none) (hok : pkt.ok = true)
    (hlen : pkt.bytes.length ≤ MAX_PACKET_SIZE) :
    enc.append_packet Z pkt =
      ({ enc with buf :=
          enc.buf ++ varIntEncode (pkt.bytes.length : Int) ++ pkt.bytes }, none) ∧
    ((enc.append_packet Z pkt).1).buf.length =
      enc.buf.length + (varIntWrittenSize (pkt.bytes.length : Int) + pkt.bytes.length) ∧
    varIntDecode (varIntEncode (pkt.bytes.length : Int) ++ pkt.bytes) =
      some ((pkt.bytes.length : Int), varIntWrittenSize (pkt.bytes.length : Int)) := by
  have hsmall : pkt.bytes.length < 2147483648 := by
    unfold MAX_PACKET_SIZE at hlen
    omega
  have hcast : usizeToI32 pkt.bytes.length = (pkt.bytes.length : Int) :=
    usizeToI32_small _ hsmall
  have hmain : enc.append_packet Z pkt =
      ({ enc with buf :=
          enc.buf ++ varIntEncode (pkt.bytes.length : Int) ++ pkt.bytes }, none) := by
    unfold PacketEncoder.append_packet
    dsimp only
    rw [hok, hthr]
    simp only [Bool.true_eq_false, if_false]
    rw [if_neg (by omega), hcast]
  refine ⟨hmain, ?_, ?_⟩
  · rw [hmain]
    simp [List.length_append, varIntWrittenSize]
  · have := varIntDecode_encode_append (pkt.bytes.length : Int) pkt.bytes (by omega)
      (by omega)
    rw [this]
    rfl

/-- Witness for C4 on a concrete three-byte payload. -/
theorem C4_no_compression_framing_witness :
    PacketEncoder.new.append_packet id ⟨[5, 6, 7], true⟩ =
      ({ buf := [3, 5, 6, 7], compression_threshold := none, cipher := none }, none) ∧
    (PacketEncoder.new.append_packet id ⟨[5, 6, 7], true⟩).1.buf.length = 4 := by
  have h := C4_no_compression_framing id PacketEncoder.new ⟨[5, 6, 7], true⟩ rfl rfl
    (by decide)
  refine ⟨?_, ?_⟩
  · rw [h.1]
    simp only [varIntEncode_eval, PacketEncoder.new]
    decide
  · rw [h.1]
    simp only [varIntEncode_eval, PacketEncoder.new]
    decide

/-- C5: a successful prepend_packet leaves the buffer equal to the framed
packet followed by the previously buffered bytes, byte for byte. -/
theorem C5_prepend_places_frame_first (Z : List Nat → List Nat) (enc : PacketEncoder)
    (pkt : Packet) (h : (enc.append_packet Z pkt).2 = none) :
    (enc.prepend_packet Z pkt).2 = none ∧
    (enc.append_packet Z pkt).1.buf.take enc.buf.length = enc.buf ∧
    (enc.prepend_packet Z pkt).1.buf =
      (enc.append_packet Z pkt).1.buf.drop enc.buf.length ++ enc.buf := by
  rcases append_packet_cases Z enc pkt with ⟨e, hE⟩ | ⟨F, hS⟩
  · rw [hE] at h
    simp at h
  · have hp := prepend_packet_success Z enc pkt F hS
    rw [hS, hp]
    dsimp only
    refine ⟨rfl, List.take_left enc.buf F, ?_⟩
    rw [List.drop_left]

/-- Witness for C5 on a concrete buffer and packet. -/
theorem C5_prepend_places_frame_first_witness :
    ((⟨[9, 9], none, none⟩ : PacketEncoder).prepend_packet id ⟨[5], true⟩).2 = none ∧
    ((⟨[9, 9], none, none⟩ : PacketEncoder).append_packet id ⟨[5], true⟩).1.buf.take 2 =
      [9, 9] ∧
    ((⟨[9, 9], none, none⟩ : PacketEncoder).prepend_packet id ⟨[5], true⟩).1.buf =
      ((⟨[9, 9], none, none⟩ : PacketEncoder).append_packet id ⟨[5], true⟩).1.buf.drop 2 ++
        [9, 9] :=
  C5_prepend_places_frame_first id ⟨[9, 9], none, none⟩ ⟨[5], true⟩ (by
    unfold PacketEncoder.append_packet
    dsimp only
    rw [if_neg (by decide), if_neg (by decide)])

/-- C6: take removes and returns all buffered bytes (whole-buffer CFB-8
encryption first when a cipher is configured), leaves the buffer empty, and
preserves the compression threshold and the cipher configuration, the
register advancing by exactly the returned bytes. -/
theorem C6_take_spec (E : List Nat → Nat) (enc : PacketEncoder) :
    (enc.take E).2.buf = [] ∧
    (enc.take E).2.compression_threshold = enc.compression_threshold ∧
    (enc.take E).1 = (match enc.cipher with
      | none => enc.buf
      | some reg => (cfb8Encrypt E reg enc.buf).1) ∧
    (enc.take E).2.cipher = (match enc.cipher with
      | none => none
      | some reg => some (cfb8Encrypt E reg enc.buf).2) := by
  cases h : enc.cipher <;> simp [PacketEncoder.take, h]

/-- C7: no encoder operation removes or replaces the installed cipher
(take only advances its register), and enabling encryption twice hits the
assertion (modelled as none, i.e. a panic, not a recoverable error). -/
theorem C7_cipher_one_way (Z : List Nat → List Nat) (E : List Nat → Nat)
    (enc : PacketEncoder) (pkt : Packet) (b key : List Nat) (t : Option Nat) :
    ((enc.append_packet Z pkt).1).cipher = enc.cipher ∧
    ((enc.prepend_packet Z pkt).1).cipher = enc.cipher ∧
    (enc.append_bytes b).cipher = enc.cipher ∧
    enc.clear.cipher = enc.cipher ∧
    (enc.set_compression t).cipher = enc.cipher ∧
    ((enc.take E).2).cipher = Option.map (fun reg => (cfb8Encrypt E reg enc.buf).2) enc.cipher ∧
    (enc.cipher ≠ none → enc.enable_encryption key = none) := by
  refine ⟨append_packet_cipher_eq Z enc pkt, ?_, rfl, rfl, rfl, ?_, ?_⟩
  · unfold PacketEncoder.prepend_packet
    rcases hc : enc.append_packet Z pkt with ⟨enc2, err⟩
    have h2 : enc2.cipher = enc.cipher := by
      have := append_packet_cipher_eq Z enc pkt
      rw [hc] at this
      exact this
    cases err <;> exact h2
  · cases h : enc.cipher <;> simp [PacketEncoder.take, h]
  · intro h
    cases hc : enc.cipher with
    | none => exact absurd hc h
    | some reg => simp [PacketEncoder.enable_encryption, hc]

/-- Witness for C7: enabling encryption on an encoder that already has a
cipher hits the assertion. -/
theorem C7_cipher_one_way_witness :
    (⟨[], none, some [7]⟩ : PacketEncoder).enable_encryption [9] = none :=
  (C7_cipher_one_way id (fun _ => 0) ⟨[], none, some [7]⟩ ⟨[], true⟩ [] [9] none).2.2.2.2.2.2
    (by decide)

/-- C8 (counterexample): on an encoding failure the packet is not dropped
from the output: the one-shot writer sink ends up with the payload bytes in
its buffer even though the write failed and was only logged. -/
theorem C8_counterexample :
    ((⟨[], none⟩ : PacketWriter).write_packet id ⟨[1, 2, 3], false⟩).buf ≠ [] := by
  decide

/-- C8 (amended): write_packet on both sinks never propagates an encoding
failure (it is total and only logs); on success the sink holds the encoder
result, but on failure the serialized payload bytes remain appended to the
sink buffer without framing — the packet is not cleanly dropped from the
output. -/
theorem C8_sink_swallows_errors (Z : List Nat → List Nat) (pkt : Packet)
    (enc : PacketEncoder) (w : PacketWriter) :
    ((enc.append_packet Z pkt).2 ≠ none →
      (PacketEncoder.write_packet Z enc pkt).buf = enc.buf ++ pkt.bytes) ∧
    ((enc.append_packet Z pkt).2 = none →
      PacketEncoder.write_packet Z enc pkt = (enc.append_packet Z pkt).1) ∧
    ((writerEncodeRes Z w pkt).2 ≠ none →
      (PacketWriter.write_packet Z w pkt).buf = w.buf ++ pkt.bytes) ∧
    ((writerEncodeRes Z w pkt).2 = none →
      (PacketWriter.write_packet Z w pkt).buf = (writerEncodeRes Z w pkt).1) := by
  refine ⟨?_, fun _ => rfl, ?_, fun _ => rfl⟩
  · intro hfail
    rcases append_packet_cases Z enc pkt with ⟨e, hE⟩ | ⟨F, hS⟩
    · unfold PacketEncoder.write_packet
      rw [hE]
    · rw [hS] at hfail
      simp at hfail
  · intro hfail
    unfold PacketWriter.write_packet
    unfold writerEncodeRes at *
    cases hT : w.threshold with
    | none =>
      rw [hT] at hfail
      dsimp only at hfail ⊢
      rcases encode_packet_cases w.buf pkt with ⟨e, hE⟩ | hnone
      · rw [hE]
      · exact absurd hnone hfail
    | some T =>
      rw [hT] at hfail
      dsimp only at hfail ⊢
      rcases encode_packet_compressed_cases Z w.buf pkt T with ⟨e, hE⟩ | hnone
      · rw [hE]
      · exact absurd hnone hfail

/-- Witness for the amended C8 on concrete failing packets for both sinks. -/
theorem C8_sink_swallows_errors_witness :
    (PacketEncoder.write_packet id ⟨[7], none, none⟩ ⟨[1, 2], false⟩).buf = [7, 1, 2] ∧
    (PacketWriter.write_packet id ⟨[8], none⟩ ⟨[1, 2], false⟩).buf = [8, 1, 2] := by
  have h := C8_sink_swallows_errors id ⟨[1, 2], false⟩ ⟨[7], none, none⟩ ⟨[8], none⟩
  exact ⟨h.1 (by decide), h.2.2.1 (by decide)⟩

/-- C9: the varint codec round-trips every i32 value in one to five bytes,
with the three concrete encodings required by the spec. -/
theorem C9_varint_roundtrip (v : Int) (h1 : -2147483648 ≤ v) (h2 : v < 2147483648) :
    varIntDecode (varIntEncode v) = some (v, (varIntEncode v).length) ∧
    1 ≤ (varIntEncode v).length ∧ (varIntEncode v).length ≤ 5 ∧
    varIntEncode 0 = [0] ∧
    varIntEncode (-1) = [255, 255, 255, 255, 15] ∧
    varIntEncode 2097151 = [255, 255, 127] := by
  refine ⟨?_, ?_, ?_, ?_, ?_, ?_⟩
  · have := varIntDecode_encode_append v [] h1 h2
    simpa using this
  · exact varIntEncodeAux_length_pos _
  · unfold varIntEncode
    apply varIntEncodeAux_length_le 5
    · have := i32ToU32_lt v
      norm_num
      omega
    · omega
  · exact varIntEncode_zero
  · rw [varIntEncode_eval]
    decide
  · rw [varIntEncode_eval]
    decide

/-- Witness for C9 at the concrete value -1. -/
theorem C9_varint_roundtrip_witness :
    varIntDecode (varIntEncode (-1)) = some (-1, (varIntEncode (-1)).length) ∧
    1 ≤ (varIntEncode (-1)).length ∧ (varIntEncode (-1)).length ≤ 5 ∧
    varIntEncode 0 = [0] ∧
    varIntEncode (-1) = [255, 255, 255, 255, 15] ∧
    varIntEncode 2097151 = [255, 255, 127] :=
  C9_varint_roundtrip (-1) (by norm_num) (by norm_num)

/-- C10: append_bytes appends the given bytes verbatim — no length prefix,
no compression, no size check — never fails, and leaves the compression and
cipher configuration untouched, for every byte sequence (including ones
longer than MAX_PACKET_SIZE) and every encoder state. -/
theorem C10_append_bytes_verbatim (enc : PacketEncoder) (b : List Nat) :
    (enc.append_bytes b).buf = enc.buf ++ b ∧
    (enc.append_bytes b).compression_threshold = enc.compression_threshold ∧
    (enc.append_bytes b).cipher = enc.cipher :=
  ⟨rfl, rfl, rfl⟩
